import Mathlib

/-!
Verification of the post-processing pipeline of `whisper.py`:
the word-segment merger `sentence_segments_merger`, the NATO
phonetic-alphabet translator `translate_phonetic_alphabet` (with its inner
replacement function `replace_match_and_bold`), and the subtitle
serialization step of `main`.

Modelling conventions:
* Python strings are `List Char`; `str.strip()` is `strip` below (dropping
  whitespace characters from both ends); `len` is `List.length`.
* Python floats (timestamps, `max_segment_interval`) are modelled as `ℚ`;
  every comparison the code performs is a strict `<` on values that the
  claims supply exactly, so the ordered-field model agrees with IEEE
  evaluation on all inputs considered here.
* The Python dict field name `end` is a Lean keyword, so the field is
  called `stop` here; `start` keeps its name.
-/



/-- Whitespace characters recognised by Python's `str.strip()` (the ASCII
ones; the transcripts handled by the script are ASCII). -/
def isSpc (c : Char) : Bool :=
  c == ' ' || c == '\t' || c == '\n' || c == '\r' || c == '\x0b' || c == '\x0c'

/-- Left strip: drop leading whitespace. -/
def lstrip (s : List Char) : List Char := s.dropWhile isSpc

/-- Right strip: drop trailing whitespace. -/
def rstrip (s : List Char) : List Char := (s.reverse.dropWhile isSpc).reverse

/-- Python's `str.strip()`: drop whitespace from both ends. -/
def strip (s : List Char) : List Char := rstrip (lstrip s)

/-- A string with no whitespace at either end and at least one character:
exactly the possible non-empty results of `strip`. -/
def clean (s : List Char) : Bool :=
  !s.isEmpty && s.head?.all (fun c => !isSpc c) && s.getLast?.all (fun c => !isSpc c)

/-- One word-level timed segment, as built by `main` from the transcription
output: a dict with keys `text`, `start`, `end`. -/
structure Token where
  text : List Char
  start : ℚ
  stop : ℚ
deriving DecidableEq, Repr

/-- One merged sentence-level segment (a subtitle cue): the dicts
accumulated by `sentence_segments_merger`. -/
structure Cue where
  text : List Char
  start : ℚ
  stop : ℚ
deriving DecidableEq, Repr

/-- The loop state of `sentence_segments_merger`: the `merged_segments`
list, the `current_segment` accumulator and the `is_current_segment_empty`
flag. -/
structure MState where
  out : List Cue
  cur : Cue
  isEmpty : Bool
deriving DecidableEq, Repr

/-- One iteration of the loop body of `sentence_segments_merger`
(whisper.py lines 114-139): skip whitespace-only segments, seed the
accumulator when it is empty, otherwise absorb the segment when both the
gap and the candidate length are strictly below their bounds, and seal the
accumulator and reseed from the segment when either bound is met. -/
def mergeStep (max_text_len : ℕ) (max_segment_interval : ℚ)
    (st : MState) (segment : Token) : MState :=
  let segment_text := strip segment.text
  if segment_text = [] then st
  else if st.isEmpty then
    ⟨st.out, ⟨strip segment.text, segment.start, segment.stop⟩, false⟩
  else if segment.start - st.cur.stop < max_segment_interval ∧
      (st.cur.text ++ ' ' :: segment_text).length < max_text_len then
    ⟨st.out, ⟨strip (st.cur.text ++ ' ' :: segment_text), st.cur.start, segment.stop⟩, false⟩
  else
    ⟨st.out ++ [⟨strip st.cur.text, st.cur.start, st.cur.stop⟩],
     ⟨strip segment.text, segment.start, segment.stop⟩, false⟩

/-- `sentence_segments_merger` (whisper.py lines 104-146): merge word
segments into sentence segments.  The empty input returns `[]` at once;
otherwise the loop runs over all segments and the final accumulator is
appended when it is not empty. -/
def sentence_segments_merger (segments : List Token)
    (max_text_len : ℕ) (max_segment_interval : ℚ) : List Cue :=
  if segments = [] then []
  else
    let st := segments.foldl (mergeStep max_text_len max_segment_interval)
      ⟨[], ⟨[], 0, 0⟩, true⟩
    if st.isEmpty then st.out
    else st.out ++ [⟨strip st.cur.text, st.cur.start, st.cur.stop⟩]

/-- Ghost-instrumented loop state: as `MState`, but each cue additionally
carries the list of input tokens it absorbed (`curToks` for the open
accumulator).  The instrumentation never influences the computed cues
(theorem `mergerT_proj` below). -/
structure TState where
  out : List (Cue × List Token)
  cur : Cue
  curToks : List Token
  isEmpty : Bool

/-- `mergeStep`, instrumented with the absorbed-token lists. -/
def mergeStepT (max_text_len : ℕ) (max_segment_interval : ℚ)
    (st : TState) (segment : Token) : TState :=
  let segment_text := strip segment.text
  if segment_text = [] then st
  else if st.isEmpty then
    ⟨st.out, ⟨strip segment.text, segment.start, segment.stop⟩, [segment], false⟩
  else if segment.start - st.cur.stop < max_segment_interval ∧
      (st.cur.text ++ ' ' :: segment_text).length < max_text_len then
    ⟨st.out, ⟨strip (st.cur.text ++ ' ' :: segment_text), st.cur.start, segment.stop⟩,
     st.curToks ++ [segment], false⟩
  else
    ⟨st.out ++ [(⟨strip st.cur.text, st.cur.start, st.cur.stop⟩, st.curToks)],
     ⟨strip segment.text, segment.start, segment.stop⟩, [segment], false⟩

/-- `sentence_segments_merger`, instrumented with the absorbed-token lists. -/
def mergerT (segments : List Token)
    (max_text_len : ℕ) (max_segment_interval : ℚ) : List (Cue × List Token) :=
  if segments = [] then []
  else
    let st := segments.foldl (mergeStepT max_text_len max_segment_interval)
      ⟨[], ⟨[], 0, 0⟩, [], true⟩
    if st.isEmpty then st.out
    else st.out ++ [(⟨strip st.cur.text, st.cur.start, st.cur.stop⟩, st.curToks)]

/-- Forget the ghost token lists. -/
def projT (st : TState) : MState := ⟨st.out.map Prod.fst, st.cur, st.isEmpty⟩

/-- The tokens recorded in a state: those of the sealed cues followed by
those of the open accumulator (none when the accumulator is empty). -/
def consumed (st : TState) : List Token :=
  (st.out.map Prod.snd).flatten ++ (if st.isEmpty then [] else st.curToks)

/-- The gap bound between two consecutively absorbed tokens. -/
def gapRel (g : ℚ) (a b : Token) : Prop := b.start - a.stop < g

/-- Facts maintained for every cue paired with its absorbed tokens: the
token list is non-empty, the cue times come from the first and last
absorbed tokens, consecutive absorbed tokens satisfy the gap bound, the
text is non-blank with no surrounding whitespace, the text is below the
length bound unless the cue holds exactly one token, and each absorbed
token's stripped text is no longer than the cue text. -/
def CueFacts (m : ℕ) (g : ℚ) (p : Cue × List Token) : Prop :=
  p.2 ≠ [] ∧
  p.2.head?.map Token.start = some p.1.start ∧
  p.2.getLast?.map Token.stop = some p.1.stop ∧
  List.Chain' (gapRel g) p.2 ∧
  clean p.1.text = true ∧
  (p.1.text.length < m ∨ p.2.length = 1) ∧
  ∀ t ∈ p.2, (strip t.text).length ≤ p.1.text.length

/-- The loop-wide invariant: every sealed cue satisfies `CueFacts`, and so
does the open accumulator whenever it is non-empty. -/
def TStInv (m : ℕ) (g : ℚ) (st : TState) : Prop :=
  (∀ p ∈ st.out, CueFacts m g p) ∧
  (st.isEmpty = false → CueFacts m g (st.cur, st.curToks))

/-- The NATO phonetic dictionary of `translate_phonetic_alphabet`
(whisper.py lines 151-159): lowercase phonetic word to uppercase letter. -/
def phonetic_to_letter : List (List Char × Char) :=
  [("alpha".data, 'A'), ("bravo".data, 'B'), ("charlie".data, 'C'), ("delta".data, 'D'),
   ("echo".data, 'E'), ("foxtrot".data, 'F'), ("golf".data, 'G'), ("hotel".data, 'H'),
   ("india".data, 'I'), ("juliet".data, 'J'), ("kilo".data, 'K'), ("lima".data, 'L'),
   ("mike".data, 'M'), ("november".data, 'N'), ("oscar".data, 'O'), ("papa".data, 'P'),
   ("quebec".data, 'Q'), ("romeo".data, 'R'), ("sierra".data, 'S'), ("tango".data, 'T'),
   ("uniform".data, 'U'), ("victor".data, 'V'), ("whiskey".data, 'W'), ("xray".data, 'X'),
   ("yankee".data, 'Y'), ("zulu".data, 'Z')]

/-- A regex word character (the class behind the `\b` anchors in the
pattern of `translate_phonetic_alphabet`): ASCII letters, digits and
underscore.  Python's Unicode `\w` coincides with this on the ASCII
transcripts the script handles. -/
def isWordChar (c : Char) : Bool := c.isAlphanum || c == '_'

/-- `replace_match_and_bold` (whisper.py lines 165-175): `matched_word` is
the lowercased match text and `letter` its mapped letter; the word
"november" (mapping to the letter N) gets its letter wrapped in the ANSI
bold escape sequence, every other match becomes the bare letter. -/
def replace_match_and_bold (matched_word : List Char) (letter : Char) : List Char :=
  if matched_word = "november".data ∧ letter = 'N' then
    '\x1b' :: '[' :: '1' :: 'm' :: letter :: '\x1b' :: '[' :: '0' :: 'm' :: []
  else [letter]

/-- Replacement of one maximal word-character run.  With the pattern
`\b(alpha|...|zulu)\b` compiled case-insensitively, `re.sub` matches are
exactly the maximal word-character runs whose lowercasing is a dictionary
key (the leading `\b` fails inside a run, and the trailing `\b` forces the
match to end at the run's end); any other run passes through unchanged. -/
def replaceRun (run : List Char) : List Char :=
  match phonetic_to_letter.lookup (run.map Char.toLower) with
  | none => run
  | some letter => replace_match_and_bold (run.map Char.toLower) letter

/-- Flush the pending word-character run of the scanner. -/
def flush (run : List Char) : List Char := if run = [] then [] else replaceRun run

/-- Left-to-right scanner implementing the `re.sub` call of
`translate_phonetic_alphabet`: accumulate the current word-character run,
replace it (via `replaceRun`) when a separator or the end of input is
reached, and copy separators through unchanged. -/
def transGo (run : List Char) : List Char → List Char
  | [] => flush run
  | c :: rest =>
    if isWordChar c then transGo (run ++ [c]) rest
    else flush run ++ c :: transGo [] rest

/-- `translate_phonetic_alphabet` (whisper.py lines 148-181). -/
def translate_phonetic_alphabet (text : List Char) : List Char := transGo [] text

/-- Modelled from the spec: the error of the Subtitle Serializer
(section 7).  The serialization step of `main` (whisper.py lines 239-254)
delegates to the external `srt` library, whose code is not part of this
repository; sections 4.2 and 7 of the specification define its contract. -/
inductive SerializeError where
  | InvalidCue
deriving DecidableEq, Repr

/-- Zero-pad a number to at least two digits. -/
def pad2 (n : ℕ) : List Char :=
  if n < 10 then '0' :: Nat.toDigits 10 n else Nat.toDigits 10 n

/-- Zero-pad a number to at least three digits. -/
def pad3 (n : ℕ) : List Char :=
  if n < 10 then '0' :: '0' :: Nat.toDigits 10 n
  else if n < 100 then '0' :: Nat.toDigits 10 n
  else Nat.toDigits 10 n

/-- Modelled from the spec (section 4.2): format seconds as
`HH:MM:SS,mmm`, comma as decimal separator, truncating below millisecond
precision. -/
def formatTimestamp (t : ℚ) : List Char :=
  let ms := (⌊t * 1000⌋).toNat
  pad2 (ms / 3600000) ++ ':' :: pad2 (ms % 3600000 / 60000) ++
    ':' :: pad2 (ms % 60000 / 1000) ++ ',' :: pad3 (ms % 1000)

/-- Modelled from the spec (section 4.2): the block emitted for cue `c`
at 0-based position `i` — index line, timing line, text, blank line. -/
def cueBlock (i : ℕ) (c : Cue) : List Char :=
  Nat.toDigits 10 i ++ '\n' :: formatTimestamp c.start ++
    ' ' :: '-' :: '-' :: '>' :: ' ' :: formatTimestamp c.stop ++
    '\n' :: c.text ++ '\n' :: '\n' :: []

/-- Modelled from the spec (sections 4.2 and 7): emit one block per cue
with contiguous 0-based indices assigned by position, or fail with
`InvalidCue` when some cue has `end < start` or empty text. -/
def serializeCues (cues : List Cue) : Except SerializeError (List (List Char)) :=
  if cues.any (fun c => decide (c.stop < c.start) || c.text.isEmpty) then
    Except.error SerializeError.InvalidCue
  else
    Except.ok (cues.enum.map fun iv => cueBlock iv.1 iv.2)

/-- Modelled from the spec: the serialized document is the concatenation
of the blocks; the empty cue sequence yields the empty document. -/
def serialize (cues : List Cue) : Except SerializeError (List Char) :=
  (serializeCues cues).map List.flatten

theorem dropWhile_length_le (p : α → Bool) (l : List α) :
    (l.dropWhile p).length ≤ l.length := by
  induction l with
  | nil => simp
  | cons a t ih =>
    by_cases h : p a
    · rw [List.dropWhile_cons_of_pos h]; simp; omega
    · rw [List.dropWhile_cons_of_neg h]

theorem head?_dropWhile_false (p : α → Bool) (l : List α) (c : α)
    (h : (l.dropWhile p).head? = some c) : p c = false := by
  have hh := List.head?_dropWhile_not p l
  rw [h] at hh
  exact hh

theorem getLast?_dropWhile_of_ne_nil (p : α → Bool) (l : List α)
    (h : l.dropWhile p ≠ []) : (l.dropWhile p).getLast? = l.getLast? := by
  induction l with
  | nil => simp at h
  | cons a t ih =>
    by_cases hp : p a
    · rw [List.dropWhile_cons_of_pos hp] at h ⊢
      have ht : t ≠ [] := by rintro rfl; simp [List.dropWhile] at h
      obtain ⟨x, hx⟩ : ∃ x, t.getLast? = some x := by
        cases hgl : t.getLast? with
        | none => exact absurd (List.getLast?_eq_none_iff.mp hgl) ht
        | some x => exact ⟨x, rfl⟩
      rw [ih h, List.getLast?_cons, hx]
      rfl
    · rw [List.dropWhile_cons_of_neg hp]

theorem strip_length_le (s : List Char) : (strip s).length ≤ s.length := by
  unfold strip rstrip lstrip
  calc ((s.dropWhile isSpc).reverse.dropWhile isSpc).reverse.length
      = ((s.dropWhile isSpc).reverse.dropWhile isSpc).length := List.length_reverse _
    _ ≤ (s.dropWhile isSpc).reverse.length := dropWhile_length_le _ _
    _ = (s.dropWhile isSpc).length := List.length_reverse _
    _ ≤ s.length := dropWhile_length_le _ _

theorem clean_iff {s : List Char} :
    clean s = true ↔
      s ≠ [] ∧ (∀ c, s.head? = some c → isSpc c = false) ∧
        (∀ c, s.getLast? = some c → isSpc c = false) := by
  unfold clean
  cases hs : s.head? <;> cases hl : s.getLast? <;>
    simp_all [List.isEmpty_iff, List.head?_eq_none_iff, List.getLast?_eq_none_iff, and_assoc]

theorem strip_of_clean {s : List Char} (h : clean s = true) : strip s = s := by
  obtain ⟨hne, hhd, hlast⟩ := clean_iff.mp h
  obtain ⟨c, t, rfl⟩ : ∃ c t, s = c :: t := by
    cases s with
    | nil => exact absurd rfl hne
    | cons c t => exact ⟨c, t, rfl⟩
  have hc : isSpc c = false := hhd c rfl
  have hls : lstrip (c :: t) = c :: t := List.dropWhile_cons_of_neg (by simp [hc])
  unfold strip
  rw [hls]
  unfold rstrip
  cases hr : (c :: t).reverse with
  | nil => exact absurd (List.reverse_eq_nil_iff.mp hr) (by simp)
  | cons d r =>
    have hd : (c :: t).getLast? = some d := by
      rw [← List.head?_reverse, hr]; rfl
    have : isSpc d = false := hlast d hd
    rw [List.dropWhile_cons_of_neg (by simp [this]), ← hr, List.reverse_reverse]

theorem clean_strip {s : List Char} (h : strip s ≠ []) : clean (strip s) = true := by
  refine clean_iff.mpr ⟨h, ?_, ?_⟩
  · intro c hc
    unfold strip rstrip at hc
    rw [List.head?_reverse] at hc
    have hxne : (lstrip s).reverse.dropWhile isSpc ≠ [] := by
      intro hnil
      apply h
      unfold strip rstrip
      rw [hnil]
      rfl
    rw [getLast?_dropWhile_of_ne_nil _ _ hxne, List.getLast?_reverse] at hc
    exact head?_dropWhile_false isSpc s c hc
  · intro c hc
    unfold strip rstrip at hc
    rw [List.getLast?_reverse] at hc
    exact head?_dropWhile_false isSpc (lstrip s).reverse c hc

theorem clean_append_clean {a b : List Char} (ha : clean a = true) (hb : clean b = true) :
    clean (a ++ ' ' :: b) = true := by
  obtain ⟨hane, hahd, _⟩ := clean_iff.mp ha
  obtain ⟨hbne, _, hblast⟩ := clean_iff.mp hb
  refine clean_iff.mpr ⟨by simp, ?_, ?_⟩
  · intro c hc
    rw [List.head?_append] at hc
    obtain ⟨d, t, rfl⟩ : ∃ d t, a = d :: t := by
      cases a with
      | nil => exact absurd rfl hane
      | cons d t => exact ⟨d, t, rfl⟩
    exact hahd c (by simpa using hc)
  · intro c hc
    rw [List.getLast?_append] at hc
    obtain ⟨d, hd⟩ : ∃ d, b.getLast? = some d := by
      cases hgl : b.getLast? with
      | none => exact absurd (List.getLast?_eq_none_iff.mp hgl) hbne
      | some d => exact ⟨d, rfl⟩
    have : (' ' :: b).getLast? = some d := by rw [List.getLast?_cons, hd]; rfl
    rw [this] at hc
    simp only [Option.or_some, Option.some.injEq] at hc
    exact hc ▸ hblast d hd

theorem strip_append_clean {a b : List Char} (ha : clean a = true) (hb : clean b = true) :
    strip (a ++ ' ' :: b) = a ++ ' ' :: b :=
  strip_of_clean (clean_append_clean ha hb)

theorem foldl_rel {α : Type*} {σ : Type*} {τ : Type*} (f : σ → α → σ) (g : τ → α → τ)
    (R : σ → τ → Prop) (hstep : ∀ s t a, R s t → R (f s a) (g t a)) :
    ∀ (l : List α) (s : σ) (t : τ), R s t → R (l.foldl f s) (l.foldl g t)
  | [], _, _, h => h
  | a :: l, s, t, h => foldl_rel f g R hstep l (f s a) (g t a) (hstep s t a h)

theorem mergeStep_projT (m : ℕ) (g : ℚ) (st : TState) (seg : Token) :
    mergeStep m g (projT st) seg = projT (mergeStepT m g st seg) := by
  simp only [mergeStep, mergeStepT, projT]
  split_ifs <;> simp

theorem mergerT_proj (segments : List Token) (m : ℕ) (g : ℚ) :
    (mergerT segments m g).map Prod.fst = sentence_segments_merger segments m g := by
  unfold mergerT sentence_segments_merger
  by_cases hseg : segments = []
  · simp [hseg]
  · simp only [hseg, if_false]
    have hrel := foldl_rel (mergeStep m g) (mergeStepT m g)
      (fun s t => s = projT t)
      (fun s t a h => by rw [h]; exact mergeStep_projT m g t a)
      segments ⟨[], ⟨[], 0, 0⟩, true⟩ ⟨[], ⟨[], 0, 0⟩, [], true⟩ rfl
    rw [hrel]
    by_cases he : (segments.foldl (mergeStepT m g) ⟨[], ⟨[], 0, 0⟩, [], true⟩).isEmpty = true
    · simp [projT, he]
    · simp [projT, he]

theorem consumed_step (m : ℕ) (g : ℚ) (st : TState) (seg : Token)
    (h : strip seg.text ≠ []) :
    consumed (mergeStepT m g st seg) = consumed st ++ [seg] := by
  simp only [consumed, mergeStepT]
  split_ifs <;> simp_all

theorem consumed_foldl (m : ℕ) (g : ℚ) :
    ∀ (l : List Token) (st : TState), (∀ t ∈ l, strip t.text ≠ []) →
      consumed (l.foldl (mergeStepT m g) st) = consumed st ++ l
  | [], st, _ => by simp
  | a :: l, st, h => by
    have ha : strip a.text ≠ [] := h a (by simp)
    have hl : ∀ t ∈ l, strip t.text ≠ [] := fun t ht => h t (by simp [ht])
    calc consumed ((a :: l).foldl (mergeStepT m g) st)
        = consumed (mergeStepT m g st a) ++ l := consumed_foldl m g l _ hl
      _ = consumed st ++ [a] ++ l := by rw [consumed_step m g st a ha]
      _ = consumed st ++ (a :: l) := by simp

theorem mergerT_flatten (segments : List Token) (m : ℕ) (g : ℚ)
    (h : ∀ t ∈ segments, strip t.text ≠ []) :
    ((mergerT segments m g).map Prod.snd).flatten = segments := by
  unfold mergerT
  by_cases hseg : segments = []
  · simp [hseg]
  · simp only [hseg, if_false]
    have hc := consumed_foldl m g segments ⟨[], ⟨[], 0, 0⟩, [], true⟩ h
    by_cases he : (segments.foldl (mergeStepT m g) ⟨[], ⟨[], 0, 0⟩, [], true⟩).isEmpty = true
    · simpa [consumed, he] using hc
    · simpa [consumed, he] using hc

theorem cueFacts_seed (m : ℕ) (g : ℚ) (seg : Token) (h : strip seg.text ≠ []) :
    CueFacts m g (⟨strip seg.text, seg.start, seg.stop⟩, [seg]) := by
  refine ⟨by simp, by simp, by simp, List.chain'_singleton _, clean_strip h, Or.inr rfl, ?_⟩
  intro t ht
  have : t = seg := by simpa using ht
  subst this
  exact le_refl _

theorem cueFacts_absorb (m : ℕ) (g : ℚ) (cur : Cue) (toks : List Token) (seg : Token)
    (hf : CueFacts m g (cur, toks)) (h : strip seg.text ≠ [])
    (hgap : seg.start - cur.stop < g)
    (hlen : (cur.text ++ ' ' :: strip seg.text).length < m) :
    CueFacts m g
      (⟨strip (cur.text ++ ' ' :: strip seg.text), cur.start, seg.stop⟩, toks ++ [seg]) := by
  obtain ⟨hne, hhd, hlast, hch, hcl, _, hbd⟩ := hf
  have hsc : clean (strip seg.text) = true := clean_strip h
  have hnoop : strip (cur.text ++ ' ' :: strip seg.text) = cur.text ++ ' ' :: strip seg.text :=
    strip_append_clean hcl hsc
  obtain ⟨x, hx⟩ : ∃ x, toks.getLast? = some x := by
    cases hgl : toks.getLast? with
    | none => exact absurd (List.getLast?_eq_none_iff.mp hgl) hne
    | some x => exact ⟨x, rfl⟩
  have hxstop : x.stop = cur.stop := by
    rw [hx] at hlast
    simpa using hlast
  refine ⟨by simp, ?_, ?_, ?_, ?_, ?_, ?_⟩
  · rw [List.head?_append]
    cases toks with
    | nil => exact absurd rfl hne
    | cons a t => simpa using hhd
  · rw [List.getLast?_concat]
    simp
  · rw [List.chain'_append]
    refine ⟨hch, List.chain'_singleton _, ?_⟩
    intro a ha b hb
    have hax : x = a := by rw [hx] at ha; simpa using ha
    have hbseg : seg = b := by simpa using hb
    show b.start - a.stop < g
    rw [← hax, ← hbseg, hxstop]
    exact hgap
  · rw [hnoop]
    exact clean_append_clean hcl hsc
  · left
    rw [hnoop]
    exact hlen
  · intro t ht
    rw [hnoop]
    rcases List.mem_append.mp ht with hmem | hmem
    · calc (strip t.text).length ≤ cur.text.length := hbd t hmem
        _ ≤ (cur.text ++ ' ' :: strip seg.text).length := by simp
    · have : t = seg := by simpa using hmem
      subst this
      simp only [List.length_append, List.length_cons]
      omega

theorem cueFacts_seal (m : ℕ) (g : ℚ) (cur : Cue) (toks : List Token)
    (hf : CueFacts m g (cur, toks)) :
    CueFacts m g (⟨strip cur.text, cur.start, cur.stop⟩, toks) := by
  have hcl : clean cur.text = true := hf.2.2.2.2.1
  have hcue : (⟨strip cur.text, cur.start, cur.stop⟩ : Cue) = cur := by
    rw [strip_of_clean hcl]
  rw [hcue]
  exact hf

theorem tStInv_step (m : ℕ) (g : ℚ) (st : TState) (seg : Token)
    (h : strip seg.text ≠ []) (hinv : TStInv m g st) :
    TStInv m g (mergeStepT m g st seg) := by
  obtain ⟨hout, hcur⟩ := hinv
  simp only [mergeStepT]
  split_ifs with h1 h2 h3
  · exact absurd h1 h
  · exact ⟨hout, fun _ => cueFacts_seed m g seg h⟩
  · refine ⟨hout, fun _ => ?_⟩
    exact cueFacts_absorb m g st.cur st.curToks seg (hcur (by simpa using h2)) h h3.1 h3.2
  · refine ⟨?_, fun _ => cueFacts_seed m g seg h⟩
    intro p hp
    rcases List.mem_append.mp hp with hm | hm
    · exact hout p hm
    · have hpv : p = (⟨strip st.cur.text, st.cur.start, st.cur.stop⟩, st.curToks) := by
        simpa using hm
      rw [hpv]
      exact cueFacts_seal m g st.cur st.curToks (hcur (by simpa using h2))

theorem tStInv_foldl (m : ℕ) (g : ℚ) :
    ∀ (l : List Token) (st : TState), (∀ t ∈ l, strip t.text ≠ []) →
      TStInv m g st → TStInv m g (l.foldl (mergeStepT m g) st)
  | [], _, _, hinv => hinv
  | a :: l, st, h, hinv =>
    tStInv_foldl m g l (mergeStepT m g st a)
      (fun t ht => h t (by simp [ht]))
      (tStInv_step m g st a (h a (by simp)) hinv)

theorem mergerT_cueFacts (segments : List Token) (m : ℕ) (g : ℚ)
    (h : ∀ t ∈ segments, strip t.text ≠ []) :
    ∀ p ∈ mergerT segments m g, CueFacts m g p := by
  intro p hp
  by_cases hseg : segments = []
  · simp [mergerT, hseg] at hp
  · have hinv := tStInv_foldl m g segments ⟨[], ⟨[], 0, 0⟩, [], true⟩ h ⟨by simp, by simp⟩
    by_cases he :
        (segments.foldl (mergeStepT m g) ⟨[], ⟨[], 0, 0⟩, [], true⟩).isEmpty = true
    · simp [mergerT, hseg, he] at hp
      exact hinv.1 p hp
    · simp [mergerT, hseg, he] at hp
      rcases hp with hm | hm
      · exact hinv.1 p hm
      · rw [hm]
        exact cueFacts_seal m g _ _ (hinv.2 (by simpa using he))

theorem chain'_head_getLast {α : Type*} {R : α → α → Prop}
    (hrefl : ∀ a, R a a) (htrans : ∀ a b c, R a b → R b c → R a c) :
    ∀ (l : List α) (a b : α), List.Chain' R l → l.head? = some a → l.getLast? = some b →
      R a b := by
  intro l
  induction l with
  | nil => intro a b _ ha _; simp at ha
  | cons x t ih =>
    intro a b hc ha hb
    have hax : x = a := by simpa using ha
    cases t with
    | nil =>
      have hbx : x = b := by simpa using hb
      rw [← hax, ← hbx]
      exact hrefl x
    | cons y u =>
      rw [List.chain'_cons] at hc
      rw [List.getLast?_cons_cons] at hb
      have hyb : R y b := ih y b hc.2 rfl hb
      rw [← hax]
      exact htrans x y b hc.1 hyb

theorem chain'_imp_mem {α : Type*} {S T : α → α → Prop} {P : α → Prop}
    (himp : ∀ x y, P x → P y → S x y → T x y) :
    ∀ (l : List α), (∀ x ∈ l, P x) → List.Chain' S l → List.Chain' T l
  | [], _, _ => List.chain'_nil
  | [x], _, _ => List.chain'_singleton x
  | x :: y :: t, hP, hc => by
    rw [List.chain'_cons] at hc ⊢
    refine ⟨himp x y (hP x (by simp)) (hP y (by simp)) hc.1, ?_⟩
    exact chain'_imp_mem himp (y :: t) (fun z hz => hP z (List.mem_cons_of_mem x hz)) hc.2

theorem foldl_skip {α : Type*} {σ : Type*} (f : σ → α → σ) (p : α → Bool)
    (hid : ∀ s a, p a = false → f s a = s) :
    ∀ (l : List α) (s : σ), l.foldl f s = (l.filter p).foldl f s
  | [], _ => rfl
  | a :: l, s => by
    by_cases h : p a = true
    · rw [List.filter_cons_of_pos h]
      exact foldl_skip f p hid l (f s a)
    · rw [List.filter_cons_of_neg h, List.foldl_cons,
        hid s a (by simpa using h)]
      exact foldl_skip f p hid l s

theorem mergeStep_blank (m : ℕ) (g : ℚ) (st : MState) (seg : Token)
    (h : strip seg.text = []) : mergeStep m g st seg = st := by
  simp [mergeStep, h]

theorem cueFacts_start_stop {m : ℕ} {g : ℚ} {p : Cue × List Token}
    (hf : CueFacts m g p) :
    ∃ a b, p.2.head? = some a ∧ p.2.getLast? = some b ∧
      a.start = p.1.start ∧ b.stop = p.1.stop := by
  obtain ⟨hne, hhd, hlast, _, _, _, _⟩ := hf
  cases hh : p.2.head? with
  | none => rw [hh] at hhd; simp at hhd
  | some a =>
    cases hl : p.2.getLast? with
    | none => rw [hl] at hlast; simp at hlast
    | some b =>
      rw [hh] at hhd
      rw [hl] at hlast
      exact ⟨a, b, rfl, rfl, by simpa using hhd, by simpa using hlast⟩

theorem mem_of_mem_cue (segments : List Token) (m : ℕ) (g : ℚ)
    (h : ∀ t ∈ segments, strip t.text ≠ []) {p : Cue × List Token} {t : Token}
    (hp : p ∈ mergerT segments m g) (ht : t ∈ p.2) : t ∈ segments := by
  rw [← mergerT_flatten segments m g h]
  exact List.mem_flatten_of_mem (List.mem_map_of_mem Prod.snd hp) ht

/-- C1: when every input token has non-empty text after trimming, every
token is absorbed into exactly one output cue — the concatenation of the
cues' absorbed-token lists is the input itself — so the cue token counts
sum to the input length; and the empty input yields the empty output. -/
theorem merger_totality (segments : List Token) (m : ℕ) (g : ℚ)
    (h : ∀ t ∈ segments, strip t.text ≠ []) :
    (mergerT segments m g).map Prod.fst = sentence_segments_merger segments m g ∧
    ((mergerT segments m g).map Prod.snd).flatten = segments ∧
    ((mergerT segments m g).map fun p => p.2.length).sum = segments.length ∧
    sentence_segments_merger [] m g = [] := by
  refine ⟨mergerT_proj segments m g, mergerT_flatten segments m g h, ?_, rfl⟩
  have hlen := congrArg List.length (mergerT_flatten segments m g h)
  simpa [List.length_flatten, List.map_map, Function.comp] using hlen

/-- Witness for C1 at a concrete one-token input. -/
theorem merger_totality_witness :
    (mergerT [⟨['a'], 0, 1⟩] 5 2).map Prod.fst =
        sentence_segments_merger [⟨['a'], 0, 1⟩] 5 2 ∧
    ((mergerT [⟨['a'], 0, 1⟩] 5 2).map Prod.snd).flatten = [⟨['a'], 0, 1⟩] ∧
    ((mergerT [⟨['a'], 0, 1⟩] 5 2).map fun p => p.2.length).sum =
        ([⟨['a'], 0, 1⟩] : List Token).length ∧
    sentence_segments_merger [] 5 2 = [] :=
  merger_totality [⟨['a'], 0, 1⟩] 5 2 (by decide)

/-- C2: with the accumulator open, a trimmed non-blank token is absorbed
exactly when both strict inequalities hold (gap below the bound and
candidate length below the bound); otherwise the step seals the current
cue and seeds a new one from the token; and consecutive tokens absorbed
into the same cue always satisfy the strict gap bound. -/
theorem merger_absorb_iff (m : ℕ) (g : ℚ) :
    (∀ (st : MState) (seg : Token), st.isEmpty = false → strip seg.text = seg.text →
      seg.text ≠ [] →
      ((mergeStep m g st seg).out = st.out ↔
        seg.start - st.cur.stop < g ∧ (st.cur.text ++ ' ' :: seg.text).length < m) ∧
      (seg.start - st.cur.stop < g ∧ (st.cur.text ++ ' ' :: seg.text).length < m →
        mergeStep m g st seg =
          ⟨st.out, ⟨strip (st.cur.text ++ ' ' :: seg.text), st.cur.start, seg.stop⟩, false⟩) ∧
      (¬(seg.start - st.cur.stop < g ∧ (st.cur.text ++ ' ' :: seg.text).length < m) →
        mergeStep m g st seg =
          ⟨st.out ++ [⟨strip st.cur.text, st.cur.start, st.cur.stop⟩],
           ⟨seg.text, seg.start, seg.stop⟩, false⟩)) ∧
    ∀ (segments : List Token), (∀ t ∈ segments, strip t.text ≠ []) →
      ∀ p ∈ mergerT segments m g, List.Chain' (gapRel g) p.2 := by
  constructor
  · intro st seg hopen htrim hne
    have hstep : mergeStep m g st seg =
        if seg.start - st.cur.stop < g ∧ (st.cur.text ++ ' ' :: seg.text).length < m then
          ⟨st.out, ⟨strip (st.cur.text ++ ' ' :: seg.text), st.cur.start, seg.stop⟩, false⟩
        else
          ⟨st.out ++ [⟨strip st.cur.text, st.cur.start, st.cur.stop⟩],
           ⟨seg.text, seg.start, seg.stop⟩, false⟩ := by
      simp only [mergeStep]
      rw [htrim, if_neg hne, if_neg (by simp [hopen])]
    by_cases hcond : seg.start - st.cur.stop < g ∧
        (st.cur.text ++ ' ' :: seg.text).length < m
    · rw [hstep, if_pos hcond]
      exact ⟨⟨fun _ => hcond, fun _ => rfl⟩, fun _ => rfl, fun hn => absurd hcond hn⟩
    · rw [hstep, if_neg hcond]
      refine ⟨⟨fun hout => ?_, fun hc => absurd hc hcond⟩,
        fun hc => absurd hc hcond, fun _ => rfl⟩
      exfalso
      have hlen := congrArg List.length hout
      simp at hlen
  · intro segments hseg p hp
    exact (mergerT_cueFacts segments m g hseg p hp).2.2.2.1

/-- Witness for C2: a concrete absorption, plus the gap chain on a
concrete one-token run. -/
theorem merger_absorb_iff_witness :
    mergeStep 80 2 ⟨[], ⟨['x'], 0, 1⟩, false⟩ ⟨['y'], mkRat 3 2, 2⟩ =
      ⟨[], ⟨strip (['x'] ++ ' ' :: ['y']), 0, 2⟩, false⟩ ∧
    List.Chain' (gapRel 2) [(⟨['x'], 0, 1⟩ : Token)] :=
  ⟨((merger_absorb_iff 80 2).1 ⟨[], ⟨['x'], 0, 1⟩, false⟩ ⟨['y'], mkRat 3 2, 2⟩ rfl
      (by decide) (by decide)).2.1 (by with_unfolding_all decide),
   (merger_absorb_iff 80 2).2 [⟨['x'], 0, 1⟩] (by decide)
      (⟨['x'], 0, 1⟩, [⟨['x'], 0, 1⟩]) (by decide)⟩

/-- C3: every produced cue has text shorter than the bound or consists of
exactly one absorbed token; a token whose stripped text alone reaches the
bound forms a cue of its own and is never split. -/
theorem merger_length_property (segments : List Token) (m : ℕ) (g : ℚ)
    (h : ∀ t ∈ segments, strip t.text ≠ []) :
    ∀ p ∈ mergerT segments m g,
      (p.1.text.length < m ∨ p.2.length = 1) ∧
      ∀ t ∈ p.2, m ≤ (strip t.text).length → p.2 = [t] := by
  intro p hp
  obtain ⟨_, _, _, _, _, hlen, hbd⟩ := mergerT_cueFacts segments m g h p hp
  refine ⟨hlen, ?_⟩
  intro t ht hm
  rcases hlen with hl | hl
  · exact absurd (lt_of_le_of_lt (le_trans hm (hbd t ht)) hl) (lt_irrefl m)
  · obtain ⟨x, hx⟩ := List.length_eq_one.mp hl
    have htx : t = x := by rw [hx] at ht; simpa using ht
    rw [hx, htx]

/-- Witness for C3 at a concrete over-length token. -/
theorem merger_length_property_witness :
    (((⟨['a', 'b', 'c'], 0, 1⟩ : Cue).text.length < 2 ∨
        ([⟨['a', 'b', 'c'], 0, 1⟩] : List Token).length = 1) ∧
      ∀ t ∈ ([⟨['a', 'b', 'c'], 0, 1⟩] : List Token),
        2 ≤ (strip t.text).length → [(⟨['a', 'b', 'c'], 0, 1⟩ : Token)] = [t]) :=
  merger_length_property [⟨['a', 'b', 'c'], 0, 1⟩] 2 1 (by decide)
    (⟨['a', 'b', 'c'], 0, 1⟩, [⟨['a', 'b', 'c'], 0, 1⟩]) (by decide)

/-- C4: the concrete three-token scenario produces exactly the two cues
from the specification, and the gap of 2.5 s indeed fails the strict
2.0 s bound. -/
theorem merger_concrete_scenario :
    sentence_segments_merger
        [⟨['a'], 0, mkRat 1 5⟩, ⟨['b'], mkRat 3 10, mkRat 1 2⟩, ⟨['c'], 3, mkRat 16 5⟩]
        80 2 =
      [⟨['a', ' ', 'b'], 0, mkRat 1 2⟩, ⟨['c'], 3, mkRat 16 5⟩] ∧
    ¬((3 : ℚ) - mkRat 1 2 < 2) := by
  constructor
  · with_unfolding_all decide
  · with_unfolding_all decide

/-- C5: under the §3 preconditions every produced cue satisfies
start ≤ stop with non-empty text, and the cues appear in non-decreasing
start order. -/
theorem merger_cue_invariants (segments : List Token) (m : ℕ) (g : ℚ)
    (h1 : ∀ t ∈ segments, strip t.text ≠ [])
    (h2 : ∀ t ∈ segments, t.start ≤ t.stop)
    (h3 : List.Chain' (fun a b : Token => a.start ≤ b.start) segments) :
    (∀ c ∈ sentence_segments_merger segments m g, c.start ≤ c.stop ∧ c.text ≠ []) ∧
    List.Chain' (fun a b : Cue => a.start ≤ b.start)
      (sentence_segments_merger segments m g) := by
  have hfacts := mergerT_cueFacts segments m g h1
  have hnil : [] ∉ (mergerT segments m g).map Prod.snd := by
    intro hmem
    obtain ⟨p, hp, hp2⟩ := List.mem_map.mp hmem
    exact (hfacts p hp).1 hp2
  have h3' : List.Chain' (fun a b : Token => a.start ≤ b.start)
      ((mergerT segments m g).map Prod.snd).flatten := by
    rw [mergerT_flatten segments m g h1]
    exact h3
  obtain ⟨hin, hbetween⟩ := (List.chain'_flatten hnil).mp h3'
  constructor
  · intro c hc
    rw [← mergerT_proj segments m g] at hc
    obtain ⟨p, hp, rfl⟩ := List.mem_map.mp hc
    obtain ⟨a, b, hha, hlb, hsa, hsb⟩ := cueFacts_start_stop (hfacts p hp)
    have hab : a.start ≤ b.start :=
      chain'_head_getLast (R := fun a b : Token => a.start ≤ b.start)
        (fun x => le_refl x.start)
        (fun _ _ _ hxy hyz => le_trans hxy hyz) p.2 a b
        (hin p.2 (List.mem_map_of_mem Prod.snd hp)) hha hlb
    have hbs : b.start ≤ b.stop :=
      h2 b (mem_of_mem_cue segments m g h1 hp (List.mem_of_getLast?_eq_some hlb))
    exact ⟨by rw [← hsa, ← hsb]; exact le_trans hab hbs,
      (clean_iff.mp (hfacts p hp).2.2.2.2.1).1⟩
  · rw [← mergerT_proj segments m g, List.chain'_map]
    rw [List.chain'_map] at hbetween
    refine chain'_imp_mem
      (P := fun p => CueFacts m g p ∧
        List.Chain' (fun a b : Token => a.start ≤ b.start) p.2)
      ?_ (mergerT segments m g)
      (fun p hp => ⟨hfacts p hp, hin p.2 (List.mem_map_of_mem Prod.snd hp)⟩) hbetween
    intro p q hP hQ hS
    obtain ⟨a, b, hha, hlb, hsa, hsb⟩ := cueFacts_start_stop hP.1
    obtain ⟨a2, b2, hha2, hlb2, hsa2, hsb2⟩ := cueFacts_start_stop hQ.1
    have hab : a.start ≤ b.start :=
      chain'_head_getLast (R := fun a b : Token => a.start ≤ b.start)
        (fun x => le_refl x.start)
        (fun _ _ _ hxy hyz => le_trans hxy hyz) p.2 a b hP.2 hha hlb
    have hba2 : b.start ≤ a2.start := hS b hlb a2 hha2
    rw [← hsa, ← hsa2]
    exact le_trans hab hba2

/-- Witness for C5 at a concrete two-token input. -/
theorem merger_cue_invariants_witness :
    (∀ c ∈ sentence_segments_merger [⟨['a'], 0, 1⟩, ⟨['b'], mkRat 3 2, 2⟩] 80 2,
      c.start ≤ c.stop ∧ c.text ≠ []) ∧
    List.Chain' (fun a b : Cue => a.start ≤ b.start)
      (sentence_segments_merger [⟨['a'], 0, 1⟩, ⟨['b'], mkRat 3 2, 2⟩] 80 2) :=
  merger_cue_invariants [⟨['a'], 0, 1⟩, ⟨['b'], mkRat 3 2, 2⟩] 80 2
    (by decide) (by with_unfolding_all decide)
    (by
      refine List.chain'_cons.mpr ⟨?_, List.chain'_singleton _⟩
      show (0 : ℚ) ≤ mkRat 3 2
      with_unfolding_all decide)

/-- C10: the merger ignores tokens that are empty after trimming — its
output on any input equals its output on the subsequence of tokens whose
trimmed text is non-empty. -/
theorem merger_skips_blank_tokens (segments : List Token) (m : ℕ) (g : ℚ) :
    sentence_segments_merger segments m g =
      sentence_segments_merger (segments.filter fun t => !(strip t.text).isEmpty) m g := by
  have hfold := foldl_skip (mergeStep m g) (fun t => !(strip t.text).isEmpty)
    (fun s a ha => mergeStep_blank m g s a (by simpa using ha))
    segments ⟨[], ⟨[], 0, 0⟩, true⟩
  by_cases h1 : segments = []
  · rw [h1]
    rfl
  · by_cases h2 : segments.filter (fun t => !(strip t.text).isEmpty) = []
    · have hL : sentence_segments_merger segments m g = [] := by
        unfold sentence_segments_merger
        rw [if_neg h1, hfold, h2]
        simp
      rw [hL, h2]
      rfl
    · unfold sentence_segments_merger
      rw [if_neg h1, if_neg h2, hfold]

theorem transGo_nil (run : List Char) : transGo run [] = flush run := rfl

theorem transGo_cons_word {c : Char} (h : isWordChar c = true) (run rest : List Char) :
    transGo run (c :: rest) = transGo (run ++ [c]) rest := by
  simp [transGo, h]

theorem transGo_cons_sep {c : Char} (h : isWordChar c = false) (run rest : List Char) :
    transGo run (c :: rest) = flush run ++ c :: transGo [] rest := by
  simp [transGo, h]

theorem transGo_acc :
    ∀ (t acc : List Char), acc ≠ [] →
      transGo acc t =
        replaceRun (acc ++ t.takeWhile isWordChar) ++ transGo [] (t.dropWhile isWordChar)
  | [], acc, h => by
    simp [transGo, flush, h]
  | c :: r, acc, h => by
    by_cases hc : isWordChar c = true
    · rw [transGo_cons_word hc, transGo_acc r (acc ++ [c]) (by simp),
        List.takeWhile_cons_of_pos hc, List.dropWhile_cons_of_pos hc]
      simp
    · have hc' : isWordChar c = false := by simpa using hc
      rw [transGo_cons_sep hc', List.takeWhile_cons_of_neg (by simp [hc']),
        List.dropWhile_cons_of_neg (by simp [hc']), transGo_cons_sep hc']
      simp [flush, h]

theorem translate_sep {c : Char} (t : List Char) (h : isWordChar c = false) :
    translate_phonetic_alphabet (c :: t) = c :: translate_phonetic_alphabet t := by
  unfold translate_phonetic_alphabet
  rw [transGo_cons_sep h]
  simp [flush]

theorem translate_word_run {c : Char} (t : List Char) (h : isWordChar c = true) :
    translate_phonetic_alphabet (c :: t) =
      replaceRun ((c :: t).takeWhile isWordChar) ++
        translate_phonetic_alphabet ((c :: t).dropWhile isWordChar) := by
  unfold translate_phonetic_alphabet
  rw [transGo_cons_word h, List.nil_append, transGo_acc t [c] (by simp),
    List.takeWhile_cons_of_pos h, List.dropWhile_cons_of_pos h]
  simp

theorem take_drop_of_sep_head (b : List Char)
    (hb : ∀ c, b.head? = some c → isWordChar c = false) :
    b.takeWhile isWordChar = [] ∧ b.dropWhile isWordChar = b := by
  cases b with
  | nil => exact ⟨rfl, rfl⟩
  | cons c r =>
    have hc := hb c rfl
    exact ⟨List.takeWhile_cons_of_neg (by simp [hc]),
      List.dropWhile_cons_of_neg (by simp [hc])⟩

theorem translate_append_aux :
    ∀ (n : ℕ) (a b : List Char), a.length ≤ n →
      (∀ c, b.head? = some c → isWordChar c = false) →
      translate_phonetic_alphabet (a ++ b) =
        translate_phonetic_alphabet a ++ translate_phonetic_alphabet b := by
  intro n
  induction n with
  | zero =>
    intro a b ha _
    have : a = [] := List.length_eq_zero.mp (Nat.le_zero.mp ha)
    rw [this]
    rfl
  | succ n ih =>
    intro a b ha hb
    cases a with
    | nil => rfl
    | cons c t =>
      by_cases hc : isWordChar c = true
      · by_cases hdrop : (c :: t).dropWhile isWordChar = []
        · have htake : (c :: t).takeWhile isWordChar = c :: t := by
            have := List.takeWhile_append_dropWhile isWordChar (c :: t)
            rw [hdrop] at this
            simpa using this
          have htb : ((c :: t) ++ b).takeWhile isWordChar = (c :: t) ++ [] := by
            rw [List.takeWhile_append]
            rw [htake, if_pos rfl, (take_drop_of_sep_head b hb).1]
          have hdb : ((c :: t) ++ b).dropWhile isWordChar = b := by
            rw [List.dropWhile_append, hdrop]
            simp [(take_drop_of_sep_head b hb).2]
          rw [List.cons_append, translate_word_run (t ++ b) hc, ← List.cons_append,
            htb, hdb, translate_word_run t hc, hdrop, htake]
          simp [translate_phonetic_alphabet, transGo, flush]
        · have htb : ((c :: t) ++ b).takeWhile isWordChar = (c :: t).takeWhile isWordChar := by
            rw [List.takeWhile_append]
            have hne2 : ¬((c :: t).takeWhile isWordChar).length = (c :: t).length := by
              intro hlen
              have hsum := congrArg List.length
                (List.takeWhile_append_dropWhile isWordChar (c :: t))
              rw [List.length_append] at hsum
              have hdl : ((c :: t).dropWhile isWordChar).length = 0 := by omega
              exact hdrop (List.length_eq_zero.mp hdl)
            rw [if_neg hne2]
          have hdb : ((c :: t) ++ b).dropWhile isWordChar =
              (c :: t).dropWhile isWordChar ++ b := by
            rw [List.dropWhile_append]
            simp [hdrop]
          have hlt : ((c :: t).dropWhile isWordChar).length ≤ n := by
            rw [List.dropWhile_cons_of_pos hc]
            have := dropWhile_length_le isWordChar t
            simp at ha
            omega
          rw [List.cons_append, translate_word_run (t ++ b) hc, ← List.cons_append,
            htb, hdb, ih _ b hlt hb, translate_word_run t hc]
          simp
      · have hc' : isWordChar c = false := by simpa using hc
        rw [List.cons_append, translate_sep (t ++ b) hc', translate_sep t hc',
          ih t b (by simp at ha; omega) hb]
        simp

theorem translate_append (a b : List Char)
    (hb : ∀ c, b.head? = some c → isWordChar c = false) :
    translate_phonetic_alphabet (a ++ b) =
      translate_phonetic_alphabet a ++ translate_phonetic_alphabet b :=
  translate_append_aux a.length a b (le_refl _) hb

theorem translate_head_sep (s : List Char)
    (hs : ∀ c, s.head? = some c → isWordChar c = false) :
    ∀ c, (translate_phonetic_alphabet s).head? = some c → isWordChar c = false := by
  cases s with
  | nil => intro c hc; simp [translate_phonetic_alphabet, transGo, flush] at hc
  | cons d r =>
    have hd := hs d rfl
    rw [translate_sep r hd]
    intro c hc
    have hcd : d = c := by simpa using hc
    rw [← hcd]
    exact hd

theorem translate_all_word (run : List Char) (h : ∀ c ∈ run, isWordChar c = true)
    (hne : run ≠ []) :
    translate_phonetic_alphabet run = replaceRun run := by
  cases run with
  | nil => exact absurd rfl hne
  | cons c t =>
    rw [translate_word_run t (h c (by simp)),
      List.takeWhile_eq_self_iff.mpr h, List.dropWhile_eq_nil_iff.mpr h]
    simp [translate_phonetic_alphabet, transGo, flush]

theorem lookup_mem {β : Type*} :
    ∀ (l : List (List Char × β)) (k : List Char) (v : β),
      l.lookup k = some v → (k, v) ∈ l
  | [], k, v, h => by simp [List.lookup] at h
  | (k', v') :: es, k, v, h => by
    simp only [List.lookup] at h
    by_cases hk : (k == k') = true
    · rw [hk] at h
      simp only [Option.some.injEq] at h
      have hkk : k = k' := by simpa using hk
      rw [hkk, ← h]
      exact List.mem_cons_self _ _
    · have hk' : (k == k') = false := by simpa using hk
      rw [hk'] at h
      exact List.mem_cons_of_mem _ (lookup_mem es k v h)

theorem phonetic_keys_long : ∀ kv ∈ phonetic_to_letter, 4 ≤ kv.1.length := by decide

theorem phonetic_letters_word : ∀ kv ∈ phonetic_to_letter, isWordChar kv.2 = true := by decide

theorem lookup_single_none (c : Char) : phonetic_to_letter.lookup [c] = none := by
  cases h : phonetic_to_letter.lookup [c] with
  | none => rfl
  | some v =>
    have h4 := phonetic_keys_long ([c], v) (lookup_mem phonetic_to_letter [c] v h)
    simp at h4

theorem translate_replaceRun (run : List Char) (hw : ∀ c ∈ run, isWordChar c = true)
    (hne : run ≠ []) :
    translate_phonetic_alphabet (replaceRun run) = replaceRun run := by
  cases hlook : phonetic_to_letter.lookup (run.map Char.toLower) with
  | none =>
    have hid : replaceRun run = run := by simp [replaceRun, hlook]
    rw [hid, translate_all_word run hw hne, hid]
  | some L =>
    have hmem := lookup_mem _ _ _ hlook
    have hLw : isWordChar L = true := phonetic_letters_word (run.map Char.toLower, L) hmem
    have hrr : replaceRun run = replace_match_and_bold (run.map Char.toLower) L := by
      simp [replaceRun, hlook]
    by_cases hnov : run.map Char.toLower = "november".data ∧ L = 'N'
    · rw [hrr]
      simp only [replace_match_and_bold, if_pos hnov]
      rw [hnov.2]
      decide
    · rw [hrr]
      simp only [replace_match_and_bold, if_neg hnov]
      rw [translate_all_word [L]
        (by
          intro x hx
          have hxL : x = L := by simpa using hx
          rw [hxL]
          exact hLw)
        (by simp)]
      simp [replaceRun, lookup_single_none]

theorem translate_idem_aux :
    ∀ (n : ℕ) (s : List Char), s.length ≤ n →
      translate_phonetic_alphabet (translate_phonetic_alphabet s) =
        translate_phonetic_alphabet s := by
  intro n
  induction n with
  | zero =>
    intro s hs
    have hnil : s = [] := List.length_eq_zero.mp (Nat.le_zero.mp hs)
    rw [hnil]
    rfl
  | succ n ih =>
    intro s hs
    cases s with
    | nil => rfl
    | cons c t =>
      by_cases hc : isWordChar c = true
      · rw [translate_word_run t hc]
        have hrh : ∀ d, ((c :: t).dropWhile isWordChar).head? = some d →
            isWordChar d = false := fun d hd => head?_dropWhile_false _ _ _ hd
        have h2 := translate_head_sep _ hrh
        rw [translate_append _ _ h2]
        have hwr : ∀ x ∈ (c :: t).takeWhile isWordChar, isWordChar x = true :=
          fun x hx => List.mem_takeWhile_imp hx
        have hrne : (c :: t).takeWhile isWordChar ≠ [] := by
          rw [List.takeWhile_cons_of_pos hc]
          simp
        have hlen2 : ((c :: t).dropWhile isWordChar).length ≤ n := by
          rw [List.dropWhile_cons_of_pos hc]
          have hdt := dropWhile_length_le isWordChar t
          simp only [List.length_cons] at hs
          omega
        rw [translate_replaceRun _ hwr hrne, ih _ hlen2]
      · have hc' : isWordChar c = false := by simpa using hc
        rw [translate_sep t hc', translate_sep (translate_phonetic_alphabet t) hc',
          ih t (by simp only [List.length_cons] at hs; omega)]

/-- C6: the phonetic translation is idempotent — translating
already-translated text changes nothing, since neither the bare
replacement letters nor the emphasis escape sequence contains a
whole-word phonetic key. -/
theorem translate_idempotent (s : List Char) :
    translate_phonetic_alphabet (translate_phonetic_alphabet s) =
      translate_phonetic_alphabet s :=
  translate_idem_aux s.length s (le_refl _)

/-- C7: matching is whole-word and case-insensitive — a phonetic word
embedded in a larger word does not match, the two positive examples
translate as specified, and text without word characters passes through
unchanged. -/
theorem translate_boundary_matching :
    translate_phonetic_alphabet "alphabetically".data = "alphabetically".data ∧
    translate_phonetic_alphabet "Alpha Bravo".data = "A B".data ∧
    translate_phonetic_alphabet "November charlie".data =
      '\x1b' :: '[' :: '1' :: 'm' :: 'N' :: '\x1b' :: '[' :: '0' :: 'm' :: ' ' :: 'C' :: [] ∧
    ∀ s : List Char, (∀ c ∈ s, isWordChar c = false) → translate_phonetic_alphabet s = s := by
  refine ⟨by decide, by decide, by decide, ?_⟩
  intro s hs
  induction s with
  | nil => rfl
  | cons c t iht =>
    rw [translate_sep t (hs c (by simp)),
      iht fun d hd => hs d (List.mem_cons_of_mem c hd)]

/-- Witness for C7's pass-through conjunct on concrete punctuation. -/
theorem translate_boundary_matching_witness :
    translate_phonetic_alphabet ['.', ','] = ['.', ','] :=
  translate_boundary_matching.2.2.2 ['.', ','] (by decide)

/-- C8: a match lowercasing to "november" is replaced by the letter N
wrapped in the bold escape sequence, and a match of any other phonetic
word is replaced by its bare mapped letter. -/
theorem replace_match_bolds_only_november (run : List Char) (L : Char)
    (hlook : phonetic_to_letter.lookup (run.map Char.toLower) = some L) :
    (run.map Char.toLower = "november".data →
      replaceRun run =
        '\x1b' :: '[' :: '1' :: 'm' :: 'N' :: '\x1b' :: '[' :: '0' :: 'm' :: []) ∧
    (run.map Char.toLower ≠ "november".data → replaceRun run = [L]) := by
  have hrr : replaceRun run = replace_match_and_bold (run.map Char.toLower) L := by
    simp [replaceRun, hlook]
  constructor
  · intro hnov
    have hN : L = 'N' := by
      rw [hnov] at hlook
      have hcomp : phonetic_to_letter.lookup "november".data = some 'N' := by decide
      rw [hcomp] at hlook
      simpa using hlook.symm
    rw [hrr, hN]
    simp only [replace_match_and_bold]
    rw [if_pos (And.intro hnov trivial)]
  · intro hnov
    rw [hrr]
    simp only [replace_match_and_bold]
    rw [if_neg]
    intro hand
    exact hnov hand.1

/-- Witness for C8 at the match "November" and at the match "Tango". -/
theorem replace_match_bolds_only_november_witness :
    replaceRun "November".data =
      '\x1b' :: '[' :: '1' :: 'm' :: 'N' :: '\x1b' :: '[' :: '0' :: 'm' :: [] ∧
    replaceRun "Tango".data = ['T'] :=
  ⟨(replace_match_bolds_only_november "November".data 'N' (by decide)).1 (by decide),
   (replace_match_bolds_only_november "Tango".data 'T' (by decide)).2 (by decide)⟩

/-- C9: serialization fails with `InvalidCue` exactly when some cue has
`end < start` or empty text; for cue sequences satisfying the section-3
invariants it succeeds, emitting one block per cue with contiguous
0-based indices assigned by position. -/
theorem serializer_invalid_cue_iff (cues : List Cue) :
    (serializeCues cues = Except.error SerializeError.InvalidCue ↔
      ∃ c ∈ cues, c.stop < c.start ∨ c.text = []) ∧
    ((∀ c ∈ cues, c.start ≤ c.stop ∧ c.text ≠ []) →
      ∃ bs, serializeCues cues = Except.ok bs ∧ bs.length = cues.length ∧
        ∀ i, ∀ h : i < cues.length, bs[i]? = some (cueBlock i (cues.get ⟨i, h⟩))) := by
  have hcond : ∀ c : Cue, (decide (c.stop < c.start) || c.text.isEmpty) = true ↔
      (c.stop < c.start ∨ c.text = []) := by
    intro c
    simp [List.isEmpty_iff]
  constructor
  · constructor
    · intro herr
      by_cases hany : cues.any (fun c => decide (c.stop < c.start) || c.text.isEmpty) = true
      · obtain ⟨c, hc, hcc⟩ := List.any_eq_true.mp hany
        exact ⟨c, hc, (hcond c).mp hcc⟩
      · simp only [serializeCues] at herr
        rw [if_neg hany] at herr
        exact absurd herr (by simp)
    · rintro ⟨c, hc, hor⟩
      have hany : cues.any (fun c => decide (c.stop < c.start) || c.text.isEmpty) = true :=
        List.any_eq_true.mpr ⟨c, hc, (hcond c).mpr hor⟩
      simp only [serializeCues]
      rw [if_pos hany]
  · intro hinv
    have hany : ¬cues.any (fun c => decide (c.stop < c.start) || c.text.isEmpty) = true := by
      intro hany
      obtain ⟨c, hc, hcc⟩ := List.any_eq_true.mp hany
      rcases (hcond c).mp hcc with hlt | hemp
      · exact absurd hlt (not_lt.mpr (hinv c hc).1)
      · exact (hinv c hc).2 hemp
    refine ⟨cues.enum.map fun iv => cueBlock iv.1 iv.2, ?_, ?_, ?_⟩
    · simp only [serializeCues]
      rw [if_neg hany]
    · simp
    · intro i h
      simp [List.getElem?_map, List.getElem?_enum, List.getElem?_eq_getElem h,
        List.get_eq_getElem]

/-- Witness for C9 at a concrete valid one-cue sequence. -/
theorem serializer_invalid_cue_iff_witness :
    ∃ bs, serializeCues [⟨['a'], 0, 1⟩] = Except.ok bs ∧
      bs.length = ([⟨['a'], 0, 1⟩] : List Cue).length ∧
      ∀ i, ∀ h : i < ([⟨['a'], 0, 1⟩] : List Cue).length,
        bs[i]? = some (cueBlock i (([⟨['a'], 0, 1⟩] : List Cue).get ⟨i, h⟩)) :=
  (serializer_invalid_cue_iff [⟨['a'], 0, 1⟩]).2 (by with_unfolding_all decide)
